import Mathlib

/-!
Shallow embedding of the hierarchy store and tree presenter of
`src/notetaker.py` (a Streamlit task tracker backed by a local SQLite file
opened with `PRAGMA foreign_keys = ON`).  Items and notes are rows; each
mutating helper of the source is translated one-to-one, with the SQLite
behaviour that the source relies on (foreign-key enforcement, cascading
delete, an `UPDATE` that matches no row) made explicit.  Timestamps are
modelled as abstract `Nat` ticks supplied by the caller in place of
`datetime.utcnow().isoformat()`; calendar dates and the enum-like fields are
plain strings, exactly as in the SQLite schema.
-/

deriving instance DecidableEq for Except

namespace Notetaker

/-- Row identifier: an opaque unique token (`uuid.uuid4()` strings in the source). -/
abbrev Id := String

/-- One row of the `tasks` table (schema in `ensure_schema`, notetaker.py
lines 27-42).  `type_` is the `type` column (`section` or `task`). -/
structure Item where
  id : Id
  parent_id : Option Id
  title : String
  type_ : String
  assignee : String
  status : String
  priority : String
  start_date : Option String
  due_date : Option String
  sort_order : Int
  created_at : Nat
  updated_at : Nat
deriving DecidableEq

/-- One row of the `notes` table (notetaker.py lines 43-50). -/
structure Note where
  id : Id
  task_id : Id
  content : String
  created_at : Nat
deriving DecidableEq

/-- The whole database: the two tables, rows kept in insertion order. -/
structure Store where
  items : List Item
  notes : List Note
deriving DecidableEq

/-- Row lookup by primary key (the `row_map` dictionaries and `WHERE id=?`
clauses of the source; the `id` column is the PRIMARY KEY, so at most one
row matches). -/
def Store.find? (s : Store) (i : Id) : Option Item :=
  s.items.find? (fun it => it.id == i)

/-- The error taxonomy of spec §7, naming the failure events of the code:
`ValidationError` is the empty-title refusal (line 255), `ReferenceError`
and `NotFoundError` are the two foreign-key `IntegrityError`s SQLite raises
with `foreign_keys = ON` (unknown parent on insert/move, unknown task on
note insert), `CycleError` is reserved by the spec for the missing cycle
check on `move_item`. -/
inductive Err
  | ValidationError
  | ReferenceError
  | CycleError
  | NotFoundError
deriving DecidableEq

/-- Characters stripped by Python's `str.strip()` (the ASCII whitespace
subset; `\x0b` and `\x0c` are vertical tab and form feed). -/
def isPySpace (c : Char) : Bool :=
  c == ' ' || c == '\t' || c == '\n' || c == '\r' || c == Char.ofNat 11 || c == Char.ofNat 12

/-- `str.strip()` on the character list: drop whitespace from both ends. -/
def stripChars (l : List Char) : List Char :=
  ((l.dropWhile isPySpace).reverse.dropWhile isPySpace).reverse

/-- Python's `str.strip()`. -/
def pyStrip (s : String) : String :=
  ⟨stripChars s.data⟩

/-- `add_note` (notetaker.py lines 78-81): plain INSERT into `notes`.  With
`foreign_keys = ON`, the `task_id REFERENCES tasks(id)` constraint makes the
INSERT fail when `task_id` matches no task row — the event spec §7 files
under `NotFoundError` (note-add against missing id); the failed statement
writes nothing.  Content is stored `.strip()`ed. -/
def add_note (s : Store) (task_id : Id) (content : String) (nid : Id) (t : Nat) :
    Except Err Store :=
  if (s.find? task_id).isSome then
    .ok { s with notes := s.notes ++ [{ id := nid, task_id := task_id,
                                        content := pyStrip content, created_at := t }] }
  else
    .error .NotFoundError

/-- `next_sort_order` (notetaker.py lines 83-85):
`COALESCE(MAX(sort_order), -1) + 1` over the rows with the given
`parent_id` — `0` for an empty sibling set, true maximum plus one otherwise. -/
def next_sort_order (s : Store) (pid : Option Id) : Int :=
  match ((s.items.filter (fun it => it.parent_id == pid)).map (·.sort_order)) with
  | [] => 0
  | x :: xs => xs.foldl max x + 1

/-- `add_item` (notetaker.py lines 87-99) together with the two checks that
guard it in the source: the caller refuses an empty (after `.strip()`) title
before calling it (`if not title_new.strip(): st.error(...)`, line 255 —
spec §7 `ValidationError`), and the `parent_id REFERENCES tasks(id)`
constraint makes the INSERT fail when a non-null parent matches no row
(spec §7 `ReferenceError`).  On success one row is appended, with stripped
`title` and `assignee`, `sort_order = next_sort_order`, and both timestamps
set to now. -/
def add_item (s : Store) (nid : Id) (t : Nat)
    (title : String) (type_ : String) (parent_id : Option Id)
    (assignee status priority : String) (start_date due_date : Option String) :
    Except Err Store :=
  if pyStrip title = "" then
    .error .ValidationError
  else
    match parent_id with
    | some p =>
      if (s.find? p).isSome then
        .ok { s with items := s.items ++
          [{ id := nid, parent_id := parent_id, title := pyStrip title, type_ := type_,
             assignee := pyStrip assignee, status := status, priority := priority,
             start_date := start_date, due_date := due_date,
             sort_order := next_sort_order s parent_id, created_at := t, updated_at := t }] }
      else
        .error .ReferenceError
    | none =>
      .ok { s with items := s.items ++
        [{ id := nid, parent_id := none, title := pyStrip title, type_ := type_,
           assignee := pyStrip assignee, status := status, priority := priority,
           start_date := start_date, due_date := due_date,
           sort_order := next_sort_order s none, created_at := t, updated_at := t }] }

/-- One expansion step of SQLite's cascading delete: every `tasks` row whose
`parent_id` is already marked for deletion joins the marked set. -/
def cascadeStep (s : Store) (acc : List Id) : List Id :=
  acc ++ ((s.items.filter (fun it =>
    (match it.parent_id with
     | some p => decide (p ∈ acc)
     | none => false) && !(decide (it.id ∈ acc)))).map (·.id))

/-- The set of row ids removed by `DELETE FROM tasks WHERE id = root` under
`ON DELETE CASCADE`: the root plus, transitively, every row whose parent
chain reaches it.  Iterating the one-step expansion `|items|` times reaches
the closure (proved below). -/
def cascadeIds (s : Store) (root : Id) : List Id :=
  (cascadeStep s)^[s.items.length] [root]

/-- `delete_item` (notetaker.py lines 101-103): `DELETE FROM tasks WHERE
id=?`.  If no row matches, nothing happens (SQLite raises no error); if one
does, `ON DELETE CASCADE` removes the whole subtree from `tasks` and every
`notes` row attached to a removed task. -/
def delete_item (s : Store) (item_id : Id) : Except Err Store :=
  if (s.find? item_id).isSome then
    .ok { items := s.items.filter (fun it => !(decide (it.id ∈ cascadeIds s item_id))),
          notes := s.notes.filter (fun n => !(decide (n.task_id ∈ cascadeIds s item_id))) }
  else
    .ok s

/-- `move_item` (notetaker.py lines 105-108): a single `UPDATE tasks SET
parent_id=?, sort_order=?, updated_at=? WHERE id=?`, with `sort_order`
computed by `next_sort_order(new_parent_id)` on the pre-state.  There is no
cycle check.  If `item_id` matches no row the UPDATE is a silent no-op; if
it does match and the new parent id matches no row, the foreign-key
constraint rejects the statement (spec §7 `ReferenceError`) and nothing is
written. -/
def move_item (s : Store) (item_id : Id) (new_parent_id : Option Id) (t : Nat) :
    Except Err Store :=
  if (s.find? item_id).isNone then
    .ok s
  else
    match new_parent_id with
    | some p =>
      if (s.find? p).isSome then
        .ok { s with items := s.items.map (fun it =>
          if it.id = item_id then
            { it with parent_id := new_parent_id,
                      sort_order := next_sort_order s new_parent_id, updated_at := t }
          else it) }
      else
        .error .ReferenceError
    | none =>
      .ok { s with items := s.items.map (fun it =>
        if it.id = item_id then
          { it with parent_id := none,
                    sort_order := next_sort_order s none, updated_at := t }
        else it) }

/-- `update_children_sort` (notetaker.py lines 110-113): for each position
`idx` in `ordered_ids`, an independent `UPDATE tasks SET sort_order=idx,
updated_at=? WHERE id=tid`.  No validation of any kind is performed — ids
missing from the table match no row and are silently skipped, siblings not
listed keep their old `sort_order` — and the `parent_id` argument is unused
by the writes, exactly as in the source. -/
def update_children_sort (s : Store) (parent_id : Option Id) (ordered_ids : List Id)
    (t : Nat) : Except Err Store :=
  .ok ((ordered_ids.enum).foldl (fun st p =>
    { st with items := st.items.map (fun it =>
        if it.id = p.2 then { it with sort_order := (p.1 : Int), updated_at := t }
        else it) }) s)

/-- The keyword arguments of `update_item_fields` (notetaker.py lines
115-121): `none` is the Python `None` default meaning "field not supplied". -/
structure FieldPatch where
  title : Option String
  assignee : Option String
  status : Option String
  priority : Option String
  start_date : Option String
  due_date : Option String
deriving DecidableEq

/-- True when no field is supplied, i.e. the source's `sets` list is empty. -/
def FieldPatch.isEmpty (p : FieldPatch) : Bool :=
  p.title.isNone && p.assignee.isNone && p.status.isNone &&
  p.priority.isNone && p.start_date.isNone && p.due_date.isNone

/-- The SET clause built by `update_item_fields` applied to one row: each
supplied field overwrites the column (`title` and `assignee` `.strip()`ed,
dates via `str(...)`), and `updated_at` is set to now. -/
def applyPatch (it : Item) (p : FieldPatch) (t : Nat) : Item :=
  { it with
    title := match p.title with | some v => pyStrip v | none => it.title,
    assignee := match p.assignee with | some v => pyStrip v | none => it.assignee,
    status := match p.status with | some v => v | none => it.status,
    priority := match p.priority with | some v => v | none => it.priority,
    start_date := match p.start_date with | some v => some v | none => it.start_date,
    due_date := match p.due_date with | some v => some v | none => it.due_date,
    updated_at := t }

/-- `update_item_fields` (notetaker.py lines 115-149): when at least one
field is supplied, one `UPDATE ... WHERE id=:id`; a missing id matches no
row and the statement is a silent no-op (SQLite raises nothing).  When no
field is supplied (`if sets:` is false) no SQL runs at all — in particular
`updated_at` is not touched.  The operation never fails. -/
def update_item_fields (s : Store) (item_id : Id) (p : FieldPatch) (t : Nat) :
    Except Err Store :=
  if p.isEmpty then
    .ok s
  else
    .ok { s with items := s.items.map (fun it =>
      if it.id = item_id then applyPatch it p t else it) }

/-- The sort key of `df.sort_values(["sort_order", "created_at"])`:
lexicographic, ascending. -/
def leKey (a b : Item) : Prop :=
  a.sort_order < b.sort_order ∨ (a.sort_order = b.sort_order ∧ a.created_at ≤ b.created_at)

instance : DecidableRel leKey := fun a b => by
  unfold leKey; infer_instance

instance : IsTotal Item leKey := by
  constructor; intro a b; unfold leKey; omega

instance : IsTrans Item leKey := by
  constructor; intro a b c; unfold leKey; omega

/-- `build_index` (notetaker.py lines 152-159) restricted to one parent
group: sort all rows by `(sort_order, created_at)` ascending, then collect
the ids whose `parent_id` equals the given key, in sorted order.  (The
source groups all parents in one pass over the sorted frame; per-group the
result is this list.  `pandas.sort_values` gives no stability guarantee, so
any lexicographic sort is a faithful model; ties never matter below.) -/
def build_index (s : Store) (pid : Option Id) : List Id :=
  ((List.insertionSort leKey s.items).filter (fun it => it.parent_id == pid)).map (·.id)

/-- `ancestors` (notetaker.py lines 161-174), fuel-indexed because the
source's `while True:` loop has no termination guarantee of its own: starting
from `item_id`, repeatedly look the cursor up and append its `parent_id`;
stop (returning the accumulated chain) when the cursor has no row — the
graceful degradation on a dangling reference — or a null parent.  `none`
means the fuel ran out, i.e. the loop was still running. -/
def ancestorsFuel (s : Store) : Nat → Id → List Id → Option (List Id)
  | 0, _, _ => none
  | fuel + 1, cur, out =>
    match s.find? cur with
    | none => some out
    | some row =>
      match row.parent_id with
      | none => some out
      | some pid => ancestorsFuel s fuel pid (out ++ [pid])

/-- `ancestors(df, item_id)` terminates: some amount of fuel makes the loop
reach one of its `break`s. -/
def ancestorsTerminates (s : Store) (item_id : Id) : Prop :=
  ∃ fuel, (ancestorsFuel s fuel item_id []).isSome

/-- One parent-reference step of the row graph: `y` is the stored parent of
the row `x` (the edge `ancestors` walks and `ON DELETE CASCADE` cascades
along, in opposite directions). -/
def pstep (s : Store) (x y : Id) : Prop :=
  ∃ it ∈ s.items, it.id = x ∧ it.parent_id = some y

/-- Primary-key well-formedness: `id` is the PRIMARY KEY of `tasks`, so the
stored ids are pairwise distinct. -/
def WF (s : Store) : Prop :=
  (s.items.map (·.id)).Nodup

/-- Acyclicity of the parent relation (the §3 data-model invariant): no row
is a strict ancestor of itself. -/
def Acyclic (s : Store) : Prop :=
  ∀ x, ¬ Relation.TransGen (pstep s) x x

instance (s : Store) : Decidable (WF s) := by
  unfold WF
  infer_instance

/-- The filter closure (notetaker.py lines 268-281): the ids of the rows
matching the predicate, plus, for each match, everything `ancestors` returns
for it.  (The source's three concrete filters — priority critical, priority
medium, status done — are instances of the row predicate.)  `ancestors` is
run with enough fuel for any acyclic store. -/
def visibleIds (s : Store) (pred : Item → Bool) : List Id :=
  let ms := (s.items.filter pred).map (·.id)
  ms.foldl (fun acc tid =>
    acc ++ ((ancestorsFuel s (s.items.length + 1) tid []).getD [])) ms

/-- `descendants_have_visible` (notetaker.py lines 303-311): the depth-first
search over the child index from `section_id` succeeds iff some strict
descendant of the section is visible; the descendant set is the cascade
closure minus the root itself. -/
def descendants_have_visible (s : Store) (pred : Item → Bool) (section_id : Id) : Bool :=
  ((cascadeIds s section_id).filter (fun d => d != section_id)).any
    (fun d => decide (d ∈ visibleIds s pred))

/-- One user-level mutation, for stating whole-history invariants. -/
inductive Op
  | create (nid : Id) (title type_ : String) (parent_id : Option Id)
      (assignee status priority : String) (start_date due_date : Option String)
  | update (item_id : Id) (p : FieldPatch)
  | note (nid : Id) (task_id : Id) (content : String)
  | move (item_id : Id) (new_parent_id : Option Id)
  | reorder (parent_id : Option Id) (ordered_ids : List Id)
  | del (item_id : Id)

/-- Run one operation at tick `t`; a failed operation writes nothing, so the
store is returned unchanged. -/
def applyOp (s : Store) (t : Nat) : Op → Store
  | .create nid title type_ parent_id assignee status priority sd dd =>
    match add_item s nid t title type_ parent_id assignee status priority sd dd with
    | .ok s' => s'
    | .error _ => s
  | .update item_id p =>
    match update_item_fields s item_id p t with
    | .ok s' => s'
    | .error _ => s
  | .note nid task_id content =>
    match add_note s task_id content nid t with
    | .ok s' => s'
    | .error _ => s
  | .move item_id new_parent_id =>
    match move_item s item_id new_parent_id t with
    | .ok s' => s'
    | .error _ => s
  | .reorder parent_id ordered_ids =>
    match update_children_sort s parent_id ordered_ids t with
    | .ok s' => s'
    | .error _ => s
  | .del item_id =>
    match delete_item s item_id with
    | .ok s' => s'
    | .error _ => s

/-- Run a sequence of operations, one tick apart. -/
def applyOps (s : Store) (t : Nat) : List Op → Store
  | [] => s
  | o :: rest => applyOps (applyOp s t o) (t + 1) rest

/-- The freshly-initialised database (`ensure_schema` on a new file). -/
def emptyStore : Store := { items := [], notes := [] }

/-- A string with no leading or trailing whitespace. -/
def Stripped (x : String) : Prop := pyStrip x = x

/-- A row with default work-tracking fields, for concrete test stores. -/
def sampleItem (i : Id) (p : Option Id) (ty : String) (so : Int) : Item :=
  { id := i, parent_id := p, title := "t", type_ := ty, assignee := "", status := "todo",
    priority := "medium", start_date := none, due_date := none, sort_order := so,
    created_at := 0, updated_at := 0 }

/-- A store holding one root section `a`. -/
def storeA : Store := { items := [sampleItem "a" none "section" 0], notes := [] }

/-- A store with a root section `p` and two child tasks `c1`, `c2`. -/
def storeP : Store :=
  { items := [sampleItem "p" none "section" 0,
              sampleItem "c1" (some "p") "task" 5,
              sampleItem "c2" (some "p") "task" 7], notes := [] }

/-- A store whose single row is its own parent (reachable in the source via
`move_item`, which re-parents without any cycle check). -/
def storeCyc : Store := { items := [sampleItem "a" (some "a") "task" 0], notes := [] }

/-- Every stored title, assignee and note content is whitespace-trimmed. -/
def StoreStripped (s : Store) : Prop :=
  (∀ it ∈ s.items, Stripped it.title ∧ Stripped it.assignee) ∧
  (∀ nt ∈ s.notes, Stripped nt.content)

/-! ### C1 — `move` onto itself or a descendant -/

/-- C1: the claim says `move(id, id)` must fail with CycleError and leave
storage unchanged.  The code has no cycle check: on a store holding the
single section `a`, `move_item a (some a)` succeeds (the foreign key is
satisfied by the row itself) and writes `a.parent_id = a`, a self-cycle. -/
theorem C1_move_self_succeeds :
    move_item storeA "a" (some "a") 1 =
      .ok { items := [{ sampleItem "a" none "section" 0 with
                        parent_id := some "a", updated_at := 1 }], notes := [] } := by
  decide

/-! ### C5 — `create` validation and reference errors -/

/-- C5: `create` fails with ValidationError on every title that is empty
after stripping, fails with ReferenceError on every non-null parent id that
matches no row, and in both cases returns an error without producing any
store — no partial mutation. -/
theorem C5_create_errors (s : Store) (nid : Id) (t : Nat)
    (title type_ assignee status priority : String) (sd dd : Option String) :
    (∀ parent_id, pyStrip title = "" →
      add_item s nid t title type_ parent_id assignee status priority sd dd
        = .error .ValidationError) ∧
    (∀ p, pyStrip title ≠ "" → s.find? p = none →
      add_item s nid t title type_ (some p) assignee status priority sd dd
        = .error .ReferenceError) := by
  constructor
  · intro pid h
    simp [add_item, h]
  · intro p h hp
    simp [add_item, h, hp]

/-- Witness for C5 at concrete inputs: a whitespace-only title is refused,
and a dangling parent reference is refused. -/
theorem C5_create_errors_witness :
    (add_item emptyStore "n1" 0 "   " "task" none "" "todo" "medium" none none
      = .error .ValidationError) ∧
    (add_item emptyStore "n1" 0 "T" "task" (some "ghost") "" "todo" "medium" none none
      = .error .ReferenceError) :=
  ⟨(C5_create_errors emptyStore "n1" 0 "   " "task" "" "todo" "medium" none none).1
      none (by decide),
   (C5_create_errors emptyStore "n1" 0 "T" "task" "" "todo" "medium" none none).2
      "ghost" (by decide) (by decide)⟩

/-! ### C7 — `update` frame conditions -/

/-- C7 counterexample: the claim says `update` always updates `updated_at`.
With an empty field map the source builds no SET clause and runs no SQL at
all (`if sets:`), so on the store holding section `a` with `updated_at = 0`,
an update at tick 5 returns the store unchanged: `updated_at` stays `0`,
not `5`. -/
theorem C7_empty_patch_no_update :
    update_item_fields storeA "a" ⟨none, none, none, none, none, none⟩ 5 = .ok storeA ∧
    (storeA.find? "a").map (·.updated_at) = some 0 := by
  decide

/-! ### C8 — operations against a missing id -/

/-- C8 counterexample: the claim says `update(id, map)` fails with
NotFoundError when `id` is unknown.  The `UPDATE ... WHERE id=?` simply
matches no row: on the one-section store, updating the absent id `zz`
returns success with the storage unchanged — no error of any kind. -/
theorem C8_update_missing_id_is_noop :
    update_item_fields storeA "zz" ⟨some "T", none, none, none, none, none⟩ 7
      = .ok storeA := by
  decide

/-- C8 amended: against a missing id, `update` is a silent no-op — its
UPDATE matches no row, SQLite raises nothing, and the storage is returned
unchanged — while `addNote` does fail (the foreign-key violation the spec
taxonomy files under NotFoundError) and leaves storage unchanged. -/
theorem C8_missing_id (s : Store) (item_id : Id) (h : s.find? item_id = none) :
    (∀ p t, update_item_fields s item_id p t = .ok s) ∧
    (∀ content nid t, add_note s item_id content nid t = .error .NotFoundError) := by
  have hid : ∀ it ∈ s.items, ¬ it.id = item_id := by
    intro it hit
    have := List.find?_eq_none.mp h it hit
    simpa using this
  constructor
  · intro p t
    unfold update_item_fields
    by_cases hp : p.isEmpty
    · simp [hp]
    · simp only [hp, Bool.false_eq_true, if_false]
      have hmap : s.items.map (fun it => if it.id = item_id then applyPatch it p t else it)
          = s.items := by
        have := List.map_congr_left (l := s.items)
          (f := fun it => if it.id = item_id then applyPatch it p t else it) (g := fun it => it)
          (by intro it hit; simp [hid it hit])
        simpa using this
      rw [hmap]
  · intro content nid t
    unfold add_note
    simp [h]

/-- Witness for C8 at a concrete input: the one-section store has no row
`zz2`; updating it succeeds unchanged, adding a note to it fails. -/
theorem C8_missing_id_witness :
    (update_item_fields storeA "zz2" ⟨some "x", none, none, none, none, none⟩ 3
      = .ok storeA) ∧
    (add_note storeA "zz2" "hello" "n9" 3 = .error .NotFoundError) :=
  ⟨(C8_missing_id storeA "zz2" (by decide)).1 _ 3,
   (C8_missing_id storeA "zz2" (by decide)).2 "hello" "n9" 3⟩

/-- Field-level description of the SET clause: `applyPatch` keeps the key,
the tree position (`parent_id`, `sort_order`) and `created_at`, stamps
`updated_at`, overwrites exactly the supplied fields (`title`/`assignee`
stripped) and keeps the unsupplied ones. -/
theorem applyPatch_spec (it : Item) (p : FieldPatch) (t : Nat) :
    (applyPatch it p t).id = it.id ∧
    (applyPatch it p t).parent_id = it.parent_id ∧
    (applyPatch it p t).sort_order = it.sort_order ∧
    (applyPatch it p t).created_at = it.created_at ∧
    (applyPatch it p t).type_ = it.type_ ∧
    (applyPatch it p t).updated_at = t ∧
    (p.title = none → (applyPatch it p t).title = it.title) ∧
    (∀ v, p.title = some v → (applyPatch it p t).title = pyStrip v) ∧
    (p.assignee = none → (applyPatch it p t).assignee = it.assignee) ∧
    (∀ v, p.assignee = some v → (applyPatch it p t).assignee = pyStrip v) ∧
    (p.status = none → (applyPatch it p t).status = it.status) ∧
    (∀ v, p.status = some v → (applyPatch it p t).status = v) ∧
    (p.priority = none → (applyPatch it p t).priority = it.priority) ∧
    (∀ v, p.priority = some v → (applyPatch it p t).priority = v) ∧
    (p.start_date = none → (applyPatch it p t).start_date = it.start_date) ∧
    (∀ v, p.start_date = some v → (applyPatch it p t).start_date = some v) ∧
    (p.due_date = none → (applyPatch it p t).due_date = it.due_date) ∧
    (∀ v, p.due_date = some v → (applyPatch it p t).due_date = some v) := by
  unfold applyPatch
  refine ⟨rfl, rfl, rfl, rfl, rfl, rfl, ?_, ?_, ?_, ?_, ?_, ?_, ?_, ?_, ?_, ?_, ?_, ?_⟩ <;>
    first
      | (intro h; simp [h])
      | (intro v h; simp [h])

/-- C7 amended: `update(id, map)` with a non-empty map rewrites, in the row
with that id only, exactly the supplied fields plus `updated_at`, never
touching `parent_id`, `sort_order` or `created_at`, and leaves every other
row and the notes table unchanged; with an empty map it is a complete no-op
(in particular `updated_at` is then not updated). -/
theorem C7_update_frame (s : Store) (item_id : Id) (p : FieldPatch) (t : Nat) :
    (p.isEmpty = true → update_item_fields s item_id p t = .ok s) ∧
    (p.isEmpty = false →
      ∃ s', update_item_fields s item_id p t = .ok s' ∧
        s'.notes = s.notes ∧
        s'.items.length = s.items.length ∧
        ∀ i (hi : i < s.items.length), ∃ hi' : i < s'.items.length,
          ((s.items[i].id ≠ item_id → s'.items[i] = s.items[i]) ∧
           (s.items[i].id = item_id → s'.items[i] = applyPatch s.items[i] p t))) := by
  constructor
  · intro hp
    unfold update_item_fields
    simp [hp]
  · intro hp
    refine ⟨{ s with items := s.items.map (fun it => if it.id = item_id then applyPatch it p t else it) }, ?_, rfl, by simp, ?_⟩
    · unfold update_item_fields
      simp [hp]
    · intro i hi
      refine ⟨by simpa using hi, ?_, ?_⟩
      · intro hne
        simp [List.getElem_map, hne]
      · intro heq
        simp [List.getElem_map, heq]

/-- Witness for C7 at concrete inputs: on the one-section store, the empty
map leaves everything (including `updated_at`) alone, and a non-empty map
produces a successful update whose notes table is untouched. -/
theorem C7_update_frame_witness :
    (update_item_fields storeA "a" ⟨none, none, none, none, none, none⟩ 9 = .ok storeA) ∧
    (∃ s', update_item_fields storeA "a" ⟨some " X ", none, none, none, none, none⟩ 5
        = .ok s' ∧ s'.notes = storeA.notes) :=
  ⟨(C7_update_frame storeA "a" ⟨none, none, none, none, none, none⟩ 9).1 (by decide),
   ((C7_update_frame storeA "a" ⟨some " X ", none, none, none, none, none⟩ 5).2
       (by decide)).elim (fun s' h => ⟨s', h.1, h.2.1⟩)⟩

/-! ### C6 — fresh sort position at the end of the sibling list -/

theorem le_foldl_max (x : Int) (xs : List Int) : x ≤ xs.foldl max x := by
  induction xs generalizing x with
  | nil => exact le_refl x
  | cons a l ih => exact le_trans (le_max_left x a) (ih (max x a))

theorem mem_le_foldl_max (x y : Int) (xs : List Int) (h : y ∈ xs) : y ≤ xs.foldl max x := by
  induction xs generalizing x with
  | nil => cases h
  | cons a l ih =>
    rcases List.mem_cons.mp h with rfl | h'
    · exact le_trans (le_max_right x y) (le_foldl_max _ _)
    · exact ih _ h'

theorem foldl_max_cases (x : Int) (xs : List Int) : xs.foldl max x = x ∨ xs.foldl max x ∈ xs := by
  induction xs generalizing x with
  | nil => exact .inl rfl
  | cons a l ih =>
    rcases ih (max x a) with h | h
    · rcases max_cases x a with ⟨h1, _⟩ | ⟨h1, _⟩
      · rw [List.foldl_cons]
        rw [h, h1]
        exact .inl rfl
      · rw [List.foldl_cons]
        rw [h, h1]
        exact .inr (List.mem_cons_self a l)
    · exact .inr (List.mem_cons_of_mem a h)

/-- The fresh position is strictly beyond every existing sibling. -/
theorem next_sort_order_gt (s : Store) (pid : Option Id) :
    ∀ sib ∈ s.items, sib.parent_id = pid → sib.sort_order < next_sort_order s pid := by
  intro sib hmem hpar
  have hm : sib.sort_order ∈ (s.items.filter (fun it => it.parent_id == pid)).map (·.sort_order) :=
    List.mem_map_of_mem _ (List.mem_filter.mpr ⟨hmem, by simp [hpar]⟩)
  cases hl : (s.items.filter (fun it => it.parent_id == pid)).map (·.sort_order) with
  | nil => rw [hl] at hm; cases hm
  | cons a l =>
    have hgoal : next_sort_order s pid = l.foldl max a + 1 := by
      unfold next_sort_order
      rw [hl]
    rw [hgoal]
    rw [hl] at hm
    rcases List.mem_cons.mp hm with heq | h'
    · have := le_foldl_max a l
      omega
    · have := mem_le_foldl_max a sib.sort_order l h'
      omega

/-- With no siblings under the target parent, the fresh position is `0`. -/
theorem next_sort_order_of_no_sibling (s : Store) (pid : Option Id)
    (h : ∀ it ∈ s.items, it.parent_id ≠ pid) : next_sort_order s pid = 0 := by
  have hf : s.items.filter (fun it => it.parent_id == pid) = [] := by
    rw [List.filter_eq_nil_iff]
    intro it hit
    simpa using h it hit
  unfold next_sort_order
  rw [hf]
  rfl

/-- With at least one sibling, the fresh position is the attained maximum of
the sibling `sort_order`s plus one. -/
theorem next_sort_order_attained (s : Store) (pid : Option Id) (sib0 : Item)
    (h0 : sib0 ∈ s.items) (hp0 : sib0.parent_id = pid) :
    ∃ sib ∈ s.items, sib.parent_id = pid ∧ next_sort_order s pid = sib.sort_order + 1 := by
  have hm : sib0.sort_order ∈ (s.items.filter (fun it => it.parent_id == pid)).map (·.sort_order) :=
    List.mem_map_of_mem _ (List.mem_filter.mpr ⟨h0, by simp [hp0]⟩)
  cases hl : (s.items.filter (fun it => it.parent_id == pid)).map (·.sort_order) with
  | nil => rw [hl] at hm; cases hm
  | cons a l =>
    have hgoal : next_sort_order s pid = l.foldl max a + 1 := by
      unfold next_sort_order
      rw [hl]
    have hmax : l.foldl max a ∈ a :: l := by
      rcases foldl_max_cases a l with h | h
      · rw [h]; exact List.mem_cons_self a l
      · exact List.mem_cons_of_mem a h
    rw [← hl] at hmax
    rcases List.mem_map.mp hmax with ⟨sib, hsib, hso⟩
    rcases List.mem_filter.mp hsib with ⟨hsmem, hsp⟩
    exact ⟨sib, hsmem, by simpa using hsp, by rw [hgoal, hso]⟩

/-- C6: both `create` and `move` place the item at the end of the target
sibling list — the assigned `sort_order` is `next_sort_order`, which is `0`
for an empty sibling set and the attained sibling maximum plus one
otherwise, hence strictly greater than every existing sibling position —
and neither operation renumbers any other row. -/
theorem C6_end_of_sibling_list (s : Store) :
    (∀ nid t title ty pid asg stt pri sd dd s',
      add_item s nid t title ty pid asg stt pri sd dd = .ok s' →
      ∃ newI, s'.items = s.items ++ [newI] ∧
        newI.sort_order = next_sort_order s pid ∧
        ∀ sib ∈ s.items, sib.parent_id = pid → sib.sort_order < newI.sort_order) ∧
    (∀ item_id pid t s', move_item s item_id pid t = .ok s' →
      (∀ it ∈ s.items, it.id ≠ item_id → it ∈ s'.items) ∧
      (∀ it' ∈ s'.items, it'.id = item_id →
        it'.sort_order = next_sort_order s pid ∧ it'.parent_id = pid ∧
        ∀ sib ∈ s.items, sib.parent_id = pid → sib.sort_order < it'.sort_order)) ∧
    (∀ pid, (∀ it ∈ s.items, it.parent_id ≠ pid) → next_sort_order s pid = 0) ∧
    (∀ pid sib0, sib0 ∈ s.items → sib0.parent_id = pid →
      ∃ sib ∈ s.items, sib.parent_id = pid ∧ next_sort_order s pid = sib.sort_order + 1) := by
  refine ⟨?_, ?_, ?_, ?_⟩
  · intro nid t title ty pid asg stt pri sd dd s' h
    unfold add_item at h
    split at h
    · cases h
    · split at h
      · split at h
        · cases h
          exact ⟨_, rfl, rfl, next_sort_order_gt s _⟩
        · cases h
      · cases h
        exact ⟨_, rfl, rfl, next_sort_order_gt s none⟩
  · intro item_id pid t s' h
    unfold move_item at h
    split at h
    · cases h
      rename_i hnone
      have hfind : s.items.find? (fun it => it.id == item_id) = none :=
        Option.isNone_iff_eq_none.mp hnone
      refine ⟨fun it hit _ => hit, ?_⟩
      intro it' hit' hid
      have := List.find?_eq_none.mp hfind it' hit'
      simp [hid] at this
    · split at h
      · split at h
        · cases h
          constructor
          · intro it hit hne
            exact List.mem_map.mpr ⟨it, hit, by simp [hne]⟩
          · intro it' hit' hid
            rcases List.mem_map.mp hit' with ⟨src, hsrc, heq⟩
            by_cases hc : src.id = item_id
            · rw [if_pos hc] at heq
              subst heq
              exact ⟨rfl, rfl, next_sort_order_gt s _⟩
            · rw [if_neg hc] at heq
              subst heq
              exact absurd hid hc
        · cases h
      · cases h
        constructor
        · intro it hit hne
          exact List.mem_map.mpr ⟨it, hit, by simp [hne]⟩
        · intro it' hit' hid
          rcases List.mem_map.mp hit' with ⟨src, hsrc, heq⟩
          by_cases hc : src.id = item_id
          · rw [if_pos hc] at heq
            subst heq
            exact ⟨rfl, rfl, next_sort_order_gt s none⟩
          · rw [if_neg hc] at heq
            subst heq
            exact absurd hid hc
  · intro pid hemp
    exact next_sort_order_of_no_sibling s pid hemp
  · intro pid sib0 h0 hp0
    exact next_sort_order_attained s pid sib0 h0 hp0

/-- Unwrap a successful operation result, keeping the old store on error. -/
def okD (r : Except Err Store) (s : Store) : Store :=
  match r with
  | .ok s' => s'
  | .error _ => s

/-- The two-child store after adding a fresh task under `p`. -/
def storePAdd : Store :=
  okD (add_item storeP "n1" 3 "T" "task" (some "p") "" "todo" "low" none none) storeP

/-- Witness for C6 at a concrete input: adding a task under `p` (whose
children have `sort_order` 5 and 7) appends one row placed strictly after
both. -/
theorem C6_end_of_sibling_list_witness :
    ∃ newI, storePAdd.items = storeP.items ++ [newI] ∧
      newI.sort_order = next_sort_order storeP (some "p") ∧
      ∀ sib ∈ storeP.items, sib.parent_id = some "p" → sib.sort_order < newI.sort_order :=
  (C6_end_of_sibling_list storeP).1 "n1" 3 "T" "task" (some "p") "" "todo" "low" none none
    storePAdd (by decide)

/-! ### C10 — stored strings are whitespace-trimmed -/

theorem dropWhile_idem (p : α → Bool) (l : List α) :
    (l.dropWhile p).dropWhile p = l.dropWhile p := by
  induction l with
  | nil => rfl
  | cons a l ih =>
    by_cases h : p a
    · simp [List.dropWhile_cons, h, ih]
    · simp [List.dropWhile_cons, h]

theorem head_dropWhile_not (p : α → Bool) (l : List α) {a : α}
    (h : (l.dropWhile p).head? = some a) : p a = false := by
  induction l with
  | nil => cases h
  | cons b l ih =>
    by_cases hb : p b
    · rw [List.dropWhile_cons, if_pos hb] at h
      exact ih h
    · rw [List.dropWhile_cons, if_neg hb] at h
      simp at h
      subst h
      simpa using hb

theorem dropWhile_eq_self_of_head (p : α → Bool) (l : List α)
    (h : ∀ a, l.head? = some a → p a = false) : l.dropWhile p = l := by
  cases l with
  | nil => rfl
  | cons b t =>
    have := h b rfl
    simp [List.dropWhile_cons, this]

theorem dropWhile_suffix_ex (p : α → Bool) (l : List α) : ∃ u, u ++ l.dropWhile p = l := by
  induction l with
  | nil => exact ⟨[], rfl⟩
  | cons a t ih =>
    by_cases h : p a
    · rcases ih with ⟨u, hu⟩
      exact ⟨a :: u, by simp [List.dropWhile_cons, h, hu]⟩
    · exact ⟨[], by simp [List.dropWhile_cons, h]⟩

/-- Stripping is idempotent on character lists. -/
theorem stripChars_idem (l : List Char) : stripChars (stripChars l) = stripChars l := by
  unfold stripChars
  set A := l.dropWhile isPySpace with hA
  set D := A.reverse.dropWhile isPySpace with hD
  have h1 : D.reverse.dropWhile isPySpace = D.reverse := by
    apply dropWhile_eq_self_of_head
    intro a ha
    rcases dropWhile_suffix_ex isPySpace A.reverse with ⟨u, hu⟩
    have hA2 : A = D.reverse ++ u.reverse := by
      have h3 := congrArg List.reverse hu
      rw [List.reverse_append, List.reverse_reverse] at h3
      rw [← hD] at h3
      exact h3.symm
    have hha : A.head? = some a := by
      rw [hA2]
      cases hDr : D.reverse with
      | nil => rw [hDr] at ha; cases ha
      | cons x xs =>
        rw [hDr] at ha
        simp at ha
        subst ha
        simp
    exact head_dropWhile_not isPySpace l (by rw [hA] at hha; exact hha)
  rw [h1, List.reverse_reverse, hD, dropWhile_idem]

/-- Python's `strip` is idempotent: stripping a stripped string changes nothing. -/
theorem pyStrip_idem (s : String) : pyStrip (pyStrip s) = pyStrip s := by
  show String.mk (stripChars (stripChars s.data)) = String.mk (stripChars s.data)
  exact congrArg String.mk (stripChars_idem s.data)

/-- Mapping a title/assignee-trimming-preserving function over the rows
preserves the trimmed-store invariant. -/
theorem storeStripped_map (s : Store) (f : Item → Item)
    (hf : ∀ it ∈ s.items, (Stripped it.title ∧ Stripped it.assignee) →
      Stripped (f it).title ∧ Stripped (f it).assignee)
    (h : StoreStripped s) : StoreStripped { s with items := s.items.map f } := by
  refine ⟨?_, h.2⟩
  intro it' hit'
  rcases List.mem_map.mp hit' with ⟨it, hit, rfl⟩
  exact hf it hit (h.1 it hit)

theorem applyPatch_stripped (it : Item) (p : FieldPatch) (t : Nat)
    (h : Stripped it.title ∧ Stripped it.assignee) :
    Stripped (applyPatch it p t).title ∧ Stripped (applyPatch it p t).assignee := by
  unfold applyPatch
  constructor
  · cases hpt : p.title with
    | none => simpa using h.1
    | some v => simpa using pyStrip_idem v
  · cases hpa : p.assignee with
    | none => simpa using h.2
    | some v => simpa using pyStrip_idem v

theorem add_item_stripped (s : Store) (nid : Id) (t : Nat)
    (title ty asg stt pri : String) (pid : Option Id) (sd dd : Option String) (s' : Store)
    (hr : add_item s nid t title ty pid asg stt pri sd dd = .ok s')
    (h : StoreStripped s) : StoreStripped s' := by
  unfold add_item at hr
  split at hr
  · cases hr
  · split at hr
    · split at hr
      · cases hr
        refine ⟨?_, h.2⟩
        intro it hit
        rcases List.mem_append.mp hit with hold | hnew
        · exact h.1 it hold
        · rw [List.mem_singleton.mp hnew]
          exact ⟨pyStrip_idem _, pyStrip_idem _⟩
      · cases hr
    · cases hr
      refine ⟨?_, h.2⟩
      intro it hit
      rcases List.mem_append.mp hit with hold | hnew
      · exact h.1 it hold
      · rw [List.mem_singleton.mp hnew]
        exact ⟨pyStrip_idem _, pyStrip_idem _⟩

theorem add_note_stripped (s : Store) (task_id : Id) (content : String) (nid : Id)
    (t : Nat) (s' : Store) (hr : add_note s task_id content nid t = .ok s')
    (h : StoreStripped s) : StoreStripped s' := by
  unfold add_note at hr
  split at hr
  · cases hr
    refine ⟨h.1, ?_⟩
    intro n hn
    rcases List.mem_append.mp hn with hold | hnew
    · exact h.2 n hold
    · rw [List.mem_singleton.mp hnew]
      exact pyStrip_idem _
  · cases hr

theorem move_item_stripped (s : Store) (item_id : Id) (pid : Option Id) (t : Nat)
    (s' : Store) (hr : move_item s item_id pid t = .ok s')
    (h : StoreStripped s) : StoreStripped s' := by
  unfold move_item at hr
  split at hr
  · cases hr; exact h
  · split at hr
    · split at hr
      · cases hr
        apply storeStripped_map _ _ _ h
        intro it _ hs
        by_cases hc : it.id = item_id
        · simpa [hc] using hs
        · simpa [hc] using hs
      · cases hr
    · cases hr
      apply storeStripped_map _ _ _ h
      intro it _ hs
      by_cases hc : it.id = item_id
      · simpa [hc] using hs
      · simpa [hc] using hs

theorem update_item_fields_stripped (s : Store) (item_id : Id) (p : FieldPatch)
    (t : Nat) (s' : Store) (hr : update_item_fields s item_id p t = .ok s')
    (h : StoreStripped s) : StoreStripped s' := by
  unfold update_item_fields at hr
  split at hr
  · cases hr; exact h
  · cases hr
    apply storeStripped_map _ _ _ h
    intro it _ hs
    by_cases hc : it.id = item_id
    · simpa [hc] using applyPatch_stripped it p t hs
    · simpa [hc] using hs

theorem update_children_sort_stripped (l : List (Nat × Id)) (t : Nat) :
    ∀ s : Store, StoreStripped s →
    StoreStripped (l.foldl (fun st q =>
      { st with items := st.items.map (fun it =>
          if it.id = q.2 then { it with sort_order := (q.1 : Int), updated_at := t }
          else it) }) s) := by
  induction l with
  | nil => intro s h; exact h
  | cons a l ih =>
    intro s h
    rw [List.foldl_cons]
    apply ih
    apply storeStripped_map _ _ _ h
    intro it _ hs
    by_cases hc : it.id = a.2
    · simpa [hc] using hs
    · simpa [hc] using hs

theorem delete_item_stripped (s : Store) (item_id : Id) (s' : Store)
    (hr : delete_item s item_id = .ok s') (h : StoreStripped s) : StoreStripped s' := by
  unfold delete_item at hr
  split at hr
  · cases hr
    constructor
    · intro it hit
      exact h.1 it (List.mem_filter.mp hit).1
    · intro n hn
      exact h.2 n (List.mem_filter.mp hn).1
  · cases hr; exact h

/-- Every single operation preserves the trimmed-store invariant. -/
theorem applyOp_stripped (s : Store) (t : Nat) (o : Op)
    (h : StoreStripped s) : StoreStripped (applyOp s t o) := by
  cases o with
  | create nid title ty pid asg stt pri sd dd =>
    cases hr : add_item s nid t title ty pid asg stt pri sd dd with
    | ok s' =>
      simp only [applyOp, hr]
      exact add_item_stripped s nid t title ty asg stt pri pid sd dd s' hr h
    | error e => simp only [applyOp, hr]; exact h
  | update item_id p =>
    cases hr : update_item_fields s item_id p t with
    | ok s' =>
      simp only [applyOp, hr]
      exact update_item_fields_stripped s item_id p t s' hr h
    | error e => simp only [applyOp, hr]; exact h
  | note nid task_id content =>
    cases hr : add_note s task_id content nid t with
    | ok s' =>
      simp only [applyOp, hr]
      exact add_note_stripped s task_id content nid t s' hr h
    | error e => simp only [applyOp, hr]; exact h
  | move item_id pid =>
    cases hr : move_item s item_id pid t with
    | ok s' =>
      simp only [applyOp, hr]
      exact move_item_stripped s item_id pid t s' hr h
    | error e => simp only [applyOp, hr]; exact h
  | reorder pid ordered_ids =>
    cases hr : update_children_sort s pid ordered_ids t with
    | ok s' =>
      simp only [applyOp, hr]
      have hfold := update_children_sort_stripped ordered_ids.enum t s h
      unfold update_children_sort at hr
      cases hr
      exact hfold
    | error e => simp only [applyOp, hr]; exact h
  | del item_id =>
    cases hr : delete_item s item_id with
    | ok s' =>
      simp only [applyOp, hr]
      exact delete_item_stripped s item_id s' hr h
    | error e => simp only [applyOp, hr]; exact h

theorem applyOps_stripped (ops : List Op) :
    ∀ s t, StoreStripped s → StoreStripped (applyOps s t ops) := by
  induction ops with
  | nil => intro s t h; exact h
  | cons o rest ih =>
    intro s t h
    exact ih _ _ (applyOp_stripped s t o h)

/-- C10: starting from a fresh database, after any sequence of operations no
stored title, assignee, or note content has leading or trailing whitespace —
every write path stores these strings through `.strip()`. -/
theorem C10_whitespace_trimmed (ops : List Op) (t : Nat) :
    StoreStripped (applyOps emptyStore t ops) :=
  applyOps_stripped ops emptyStore t
    ⟨fun it h => absurd h (List.not_mem_nil it), fun n h => absurd h (List.not_mem_nil n)⟩

/-! ### C3 — cascading delete -/

/-- The number of stored rows already marked by the cascade. -/
def marked (s : Store) (acc : List Id) : Nat :=
  s.items.countP (fun it => decide (it.id ∈ acc))

theorem countP_lt_of_witness {α : Type _} {p q : α → Bool} (l : List α)
    (hmono : ∀ x ∈ l, p x = true → q x = true) (a : α) (ha : a ∈ l)
    (hpa : p a = false) (hqa : q a = true) : l.countP p < l.countP q := by
  induction l with
  | nil => cases ha
  | cons b t ih =>
    rw [List.countP_cons, List.countP_cons]
    have hmt : ∀ x ∈ t, p x = true → q x = true :=
      fun x hx => hmono x (List.mem_cons_of_mem b hx)
    have hmono_t := List.countP_mono_left hmt
    rcases List.mem_cons.mp ha with rfl | hat
    · rw [hpa, hqa]
      simp
      omega
    · have hlt := ih hmt hat
      by_cases hpb : p b
      · rw [hpb, hmono b (List.mem_cons_self b t) hpb]
        simp
        omega
      · rw [Bool.not_eq_true] at hpb
        rw [hpb]
        by_cases hqb : q b
        · rw [hqb]
          simp
          omega
        · rw [Bool.not_eq_true] at hqb
          rw [hqb]
          simp
          omega

theorem iterate_fixed {α : Type _} (f : α → α) (x : α) (hx : f x = x) :
    ∀ n, f^[n] x = x := by
  intro n
  induction n with
  | zero => rfl
  | succ n ih => rw [Function.iterate_succ_apply, hx, ih]

theorem subset_iterate_cascadeStep (s : Store) :
    ∀ n (acc : List Id), acc ⊆ (cascadeStep s)^[n] acc := by
  intro n
  induction n with
  | zero => intro acc y hy; exact hy
  | succ n ih =>
    intro acc y hy
    rw [Function.iterate_succ_apply]
    exact ih (cascadeStep s acc) (List.mem_append.mpr (.inl hy))

theorem root_mem_cascadeIds (s : Store) (root : Id) : root ∈ cascadeIds s root :=
  subset_iterate_cascadeStep s s.items.length [root] (List.mem_singleton_self root)

theorem marked_step_lt (s : Store) (acc : List Id) (h : cascadeStep s acc ≠ acc) :
    marked s acc < marked s (cascadeStep s acc) := by
  cases hL : (s.items.filter (fun it =>
      (match it.parent_id with
       | some p => decide (p ∈ acc)
       | none => false) && !(decide (it.id ∈ acc)))).map (·.id) with
  | nil =>
    exact absurd (by unfold cascadeStep; rw [hL]; simp) h
  | cons y ys =>
    have hy : y ∈ (s.items.filter (fun it =>
        (match it.parent_id with
         | some p => decide (p ∈ acc)
         | none => false) && !(decide (it.id ∈ acc)))).map (·.id) := by
      rw [hL]; exact List.mem_cons_self _ _
    rcases List.mem_map.mp hy with ⟨it, hit, hid⟩
    rcases List.mem_filter.mp hit with ⟨hmem, hcond⟩
    rw [Bool.and_eq_true] at hcond
    have hnot : it.id ∉ acc := by simpa using hcond.2
    have hin : it.id ∈ cascadeStep s acc := by
      rw [← hid] at hy
      exact List.mem_append.mpr (.inr hy)
    apply countP_lt_of_witness s.items _ it hmem
    · exact decide_eq_false hnot
    · exact decide_eq_true hin
    · intro x _ hpx
      exact decide_eq_true (List.mem_append.mpr (.inl (of_decide_eq_true hpx)))

theorem marked_le (s : Store) (acc : List Id) : marked s acc ≤ s.items.length :=
  List.countP_le_length _

/-- The cascade closure really is closed: one more expansion step adds nothing. -/
theorem cascadeStep_cascadeIds (s : Store) (root : Id) :
    cascadeStep s (cascadeIds s root) = cascadeIds s root := by
  by_contra hne
  have hnofix : ∀ k, k ≤ s.items.length →
      cascadeStep s ((cascadeStep s)^[k] [root]) ≠ (cascadeStep s)^[k] [root] := by
    intro k hk hfix
    apply hne
    have h1 : (cascadeStep s)^[s.items.length] [root]
        = (cascadeStep s)^[s.items.length - k] ((cascadeStep s)^[k] [root]) := by
      rw [← Function.iterate_add_apply]
      congr 1
      omega
    show cascadeStep s (cascadeIds s root) = cascadeIds s root
    unfold cascadeIds
    rw [h1, iterate_fixed _ _ hfix]
    exact hfix
  have hgrow : ∀ k, k ≤ s.items.length → k ≤ marked s ((cascadeStep s)^[k] [root]) := by
    intro k
    induction k with
    | zero => intro _; exact Nat.zero_le _
    | succ k ih =>
      intro hk
      have h1 := ih (Nat.le_of_succ_le hk)
      have h2 := marked_step_lt s _ (hnofix k (Nat.le_of_succ_le hk))
      rw [Function.iterate_succ_apply']
      omega
  have hend := hgrow s.items.length (le_refl _)
  have h3 := marked_step_lt s _ (by unfold cascadeIds at hne; exact hne)
  have h4 := marked_le s (cascadeStep s ((cascadeStep s)^[s.items.length] [root]))
  unfold cascadeIds at hend h3
  omega

theorem cascadeIds_closed (s : Store) (root : Id) :
    ∀ it ∈ s.items, ∀ p, it.parent_id = some p →
      p ∈ cascadeIds s root → it.id ∈ cascadeIds s root := by
  intro it hit p hp hpacc
  by_contra hno
  have hcond : ((match it.parent_id with
      | some q => decide (q ∈ cascadeIds s root)
      | none => false) && !(decide (it.id ∈ cascadeIds s root))) = true := by
    rw [Bool.and_eq_true]
    exact ⟨by rw [hp]; exact decide_eq_true hpacc, by simpa using hno⟩
  have hmm : it.id ∈ cascadeStep s (cascadeIds s root) :=
    List.mem_append.mpr (.inr (List.mem_map_of_mem _ (List.mem_filter.mpr ⟨hit, hcond⟩)))
  rw [cascadeStep_cascadeIds] at hmm
  exact hno hmm

theorem cascadeIds_sound (s : Store) (root : Id) :
    ∀ y ∈ cascadeIds s root, y = root ∨ Relation.TransGen (pstep s) y root := by
  have key : ∀ n (acc : List Id),
      (∀ y ∈ acc, y = root ∨ Relation.TransGen (pstep s) y root) →
      ∀ y ∈ (cascadeStep s)^[n] acc, y = root ∨ Relation.TransGen (pstep s) y root := by
    intro n
    induction n with
    | zero => intro acc hacc; exact hacc
    | succ n ih =>
      intro acc hacc
      rw [Function.iterate_succ_apply]
      apply ih
      intro y hy
      rcases List.mem_append.mp hy with h | h
      · exact hacc y h
      · rcases List.mem_map.mp h with ⟨it, hit, rfl⟩
        rcases List.mem_filter.mp hit with ⟨hmem, hcond⟩
        rw [Bool.and_eq_true] at hcond
        cases hp : it.parent_id with
        | none => rw [hp] at hcond; exact absurd hcond.1 (by simp)
        | some p =>
          rw [hp] at hcond
          have hpacc : p ∈ acc := of_decide_eq_true hcond.1
          have hstep : pstep s it.id p := ⟨it, hmem, rfl, hp⟩
          rcases hacc p hpacc with rfl | htg
          · exact .inr (.single hstep)
          · exact .inr (.head hstep htg)
  intro y hy
  apply key s.items.length [root] _ y hy
  intro z hz
  rw [List.mem_singleton.mp hz]
  exact .inl rfl

theorem cascadeIds_complete (s : Store) (root : Id) (y : Id)
    (h : Relation.ReflTransGen (pstep s) y root) : y ∈ cascadeIds s root := by
  induction h using Relation.ReflTransGen.head_induction_on with
  | refl => exact root_mem_cascadeIds s root
  | head hstep hrest ih =>
    obtain ⟨it, hit, hid, hpar⟩ := hstep
    exact hid ▸ cascadeIds_closed s root it hit _ hpar ih

/-- Membership in the cascade set is exactly "the deleted row itself or a
transitive descendant of it through parent references". -/
theorem mem_cascadeIds_iff (s : Store) (root : Id) (y : Id) :
    y ∈ cascadeIds s root ↔ (y = root ∨ Relation.TransGen (pstep s) y root) := by
  constructor
  · exact cascadeIds_sound s root y
  · rintro (rfl | htg)
    · exact root_mem_cascadeIds s _
    · exact cascadeIds_complete s root y htg.to_reflTransGen

theorem length_filter_not {α : Type _} (p : α → Bool) (l : List α) :
    (l.filter (fun x => !(p x))).length = l.length - (l.filter p).length := by
  induction l with
  | nil => rfl
  | cons a t ih =>
    have hle := List.length_filter_le p t
    by_cases h : p a
    · simp [List.filter_cons, h, ih]
    · rw [Bool.not_eq_true] at h
      simp [List.filter_cons, h, ih]
      omega

/-- C3: `delete(id)` removes the row, every transitive descendant, and every
note attached to a removed row, and touches nothing else; the row count
drops by exactly the subtree size; deleting an absent id is a no-op, and
repeating a delete is a no-op (idempotence). -/
theorem C3_delete_cascade (s : Store) (item_id : Id) :
    ∃ s', delete_item s item_id = .ok s' ∧
      ((s.find? item_id).isSome →
        (∀ x : Item, x ∈ s'.items ↔
          (x ∈ s.items ∧ ¬(x.id = item_id ∨ Relation.TransGen (pstep s) x.id item_id))) ∧
        (∀ n : Note, n ∈ s'.notes ↔
          (n ∈ s.notes ∧ ¬(n.task_id = item_id ∨ Relation.TransGen (pstep s) n.task_id item_id))) ∧
        s'.items.length = s.items.length
          - (s.items.filter (fun x => decide (x.id ∈ cascadeIds s item_id))).length ∧
        delete_item s' item_id = .ok s') ∧
      ((s.find? item_id) = none → s' = s) := by
  by_cases hfind : (s.find? item_id).isSome
  · refine ⟨_, by unfold delete_item; rw [if_pos hfind], ?_, ?_⟩
    · intro _
      refine ⟨?_, ?_, ?_, ?_⟩
      · intro x
        rw [List.mem_filter]
        constructor
        · rintro ⟨hx, hcond⟩
          refine ⟨hx, ?_⟩
          intro hc
          rw [← mem_cascadeIds_iff] at hc
          simp [hc] at hcond
        · rintro ⟨hx, hnc⟩
          refine ⟨hx, ?_⟩
          rw [← mem_cascadeIds_iff] at hnc
          simpa using hnc
      · intro n
        rw [List.mem_filter]
        constructor
        · rintro ⟨hn, hcond⟩
          refine ⟨hn, ?_⟩
          intro hc
          rw [← mem_cascadeIds_iff] at hc
          simp [hc] at hcond
        · rintro ⟨hn, hnc⟩
          refine ⟨hn, ?_⟩
          rw [← mem_cascadeIds_iff] at hnc
          simpa using hnc
      · exact length_filter_not _ _
      · have hnone : (List.filter (fun it => !(decide (it.id ∈ cascadeIds s item_id)))
            s.items).find? (fun it => it.id == item_id) = none := by
          rw [List.find?_eq_none]
          intro x hx
          rcases List.mem_filter.mp hx with ⟨_, hcond⟩
          intro hbeq
          have hxid : x.id = item_id := by simpa using hbeq
          have : x.id ∈ cascadeIds s item_id := by
            rw [hxid]; exact root_mem_cascadeIds s item_id
          simp [this] at hcond
        unfold delete_item Store.find?
        rw [hnone]
        simp
    · intro hnone
      rw [hnone] at hfind
      cases hfind
  · refine ⟨s, ?_, ?_, fun _ => rfl⟩
    · unfold delete_item
      rw [if_neg hfind]
    · intro hsome
      exact absurd hsome hfind

/-- Witness for C3 at concrete inputs: deleting section `p` from the
three-row store removes the whole subtree (all three rows), and the
characterization instantiates. -/
theorem C3_delete_cascade_witness :
    ∃ s', delete_item storeP "p" = .ok s' ∧
      ((storeP.find? "p").isSome →
        (∀ x : Item, x ∈ s'.items ↔
          (x ∈ storeP.items ∧ ¬(x.id = "p" ∨ Relation.TransGen (pstep storeP) x.id "p"))) ∧
        (∀ n : Note, n ∈ s'.notes ↔
          (n ∈ storeP.notes ∧ ¬(n.task_id = "p" ∨ Relation.TransGen (pstep storeP) n.task_id "p"))) ∧
        s'.items.length = storeP.items.length
          - (storeP.items.filter (fun x => decide (x.id ∈ cascadeIds storeP "p"))).length ∧
        delete_item s' "p" = .ok s') ∧
      ((storeP.find? "p") = none → s' = storeP) :=
  C3_delete_cascade storeP "p"

/-! ### C4 — `ancestors`: termination and the returned chain -/

/-- A successful lookup yields a parent step of the row graph. -/
theorem pstep_of_find (s : Store) {cur pid : Id} {row : Item}
    (hfind : s.find? cur = some row) (hpar : row.parent_id = some pid) :
    pstep s cur pid := by
  refine ⟨row, List.mem_of_find?_eq_some hfind, ?_, hpar⟩
  simpa using List.find?_some hfind

/-- Under the primary-key invariant, two rows with the same id coincide. -/
theorem nodup_id_unique {s : Store} (hWF : WF s) {a b : Item} (ha : a ∈ s.items)
    (hb : b ∈ s.items) (hab : a.id = b.id) : a = b :=
  List.inj_on_of_nodup_map hWF ha hb hab

/-- Under the primary-key invariant, a parent step determines the looked-up
row: `find?` succeeds and returns the row carrying that parent. -/
theorem find_of_pstep (s : Store) (hWF : WF s) {x y : Id} (h : pstep s x y) :
    ∃ row, s.find? x = some row ∧ row.parent_id = some y := by
  obtain ⟨it, hit, hid, hpar⟩ := h
  cases hfind : s.find? x with
  | none =>
    have := List.find?_eq_none.mp hfind it hit
    simp [hid] at this
  | some row =>
    have hmemrow : row ∈ s.items := List.mem_of_find?_eq_some hfind
    have hrowid : row.id = x := by simpa using List.find?_some hfind
    have heq : row = it := nodup_id_unique hWF hmemrow hit (hrowid.trans hid.symm)
    subst heq
    exact ⟨row, rfl, hpar⟩

/-- Unfolding equation of the fuel-indexed loop body. -/
theorem ancestorsFuel_succ (s : Store) (fuel : Nat) (cur : Id) (out : List Id) :
    ancestorsFuel s (fuel + 1) cur out =
      match s.find? cur with
      | none => some out
      | some row =>
        match row.parent_id with
        | none => some out
        | some pid => ancestorsFuel s fuel pid (out ++ [pid]) := rfl

/-- The accumulator of `ancestorsFuel` is a pure prefix: running with any
`out` is running with `[]` and prepending `out` to the result. -/
theorem ancestorsFuel_out_append (s : Store) :
    ∀ (fuel : Nat) (cur : Id) (out : List Id),
      ancestorsFuel s fuel cur out = (ancestorsFuel s fuel cur []).map (out ++ ·) := by
  intro fuel
  induction fuel with
  | zero => intro cur out; rfl
  | succ fuel ih =>
    intro cur out
    cases hfind : s.find? cur with
    | none => simp [ancestorsFuel_succ, hfind]
    | some row =>
      cases hpar : row.parent_id with
      | none => simp [ancestorsFuel_succ, hfind, hpar]
      | some pid =>
        simp only [ancestorsFuel_succ, hfind, hpar]
        rw [ih pid (out ++ [pid]), List.nil_append, ih pid [pid], Option.map_map]
        cases ancestorsFuel s fuel pid [] with
        | none => rfl
        | some m => simp

/-- Pigeonhole termination: once the fuel plus the number of already-visited
cursors exceeds the number of rows, the walk must reach a break — on an
acyclic well-formed store the visited cursors are pairwise distinct row ids. -/
theorem ancestorsFuel_isSome (s : Store) (hWF : WF s) (hAc : Acyclic s) :
    ∀ (fuel : Nat) (cur : Id) (trace : List Id),
      (∀ z ∈ trace, Relation.TransGen (pstep s) z cur) →
      (∀ z ∈ trace, z ∈ s.items.map (·.id)) →
      trace.Nodup →
      s.items.length + 1 ≤ fuel + trace.length →
      (ancestorsFuel s fuel cur []).isSome := by
  intro fuel
  induction fuel with
  | zero =>
    intro cur trace _ h2 h3 hf
    exfalso
    have hlen := (List.subperm_of_subset h3 h2).length_le
    rw [List.length_map] at hlen
    omega
  | succ fuel ih =>
    intro cur trace h1 h2 h3 hf
    cases hfind : s.find? cur with
    | none => simp [ancestorsFuel_succ, hfind]
    | some row =>
      cases hpar : row.parent_id with
      | none => simp [ancestorsFuel_succ, hfind, hpar]
      | some pid =>
        simp only [ancestorsFuel_succ, hfind, hpar]
        have hstep : pstep s cur pid := pstep_of_find s hfind hpar
        have hcurid : cur ∈ s.items.map (·.id) := by
          have hmem : row ∈ s.items := List.mem_of_find?_eq_some hfind
          have hrowid : row.id = cur := by simpa using List.find?_some hfind
          exact hrowid ▸ List.mem_map_of_mem _ hmem
        have hcurnot : cur ∉ trace := by
          intro hc
          exact hAc cur (h1 cur hc)
        rw [List.nil_append, ancestorsFuel_out_append, Option.isSome_map']
        apply ih pid (trace ++ [cur])
        · intro z hz
          rcases List.mem_append.mp hz with hz | hz
          · exact (h1 z hz).tail hstep
          · rw [List.mem_singleton.mp hz]
            exact .single hstep
        · intro z hz
          rcases List.mem_append.mp hz with hz | hz
          · exact h2 z hz
          · rw [List.mem_singleton.mp hz]
            exact hcurid
        · rw [List.nodup_append]
          exact ⟨h3, List.nodup_singleton cur,
            fun z hz hz' => hcurnot ((List.mem_singleton.mp hz') ▸ hz)⟩
        · rw [List.length_append]
          simp
          omega

/-- With fuel one past the row count, the walk completes on every acyclic
well-formed store. -/
theorem ancestorsFuel_total (s : Store) (hWF : WF s) (hAc : Acyclic s) (cur : Id) :
    (ancestorsFuel s (s.items.length + 1) cur []).isSome :=
  ancestorsFuel_isSome s hWF hAc (s.items.length + 1) cur []
    (by intro z hz; cases hz) (by intro z hz; cases hz) List.nodup_nil (by simp)

/-- What a completed walk returns: the parent chain from the start cursor
(consecutive elements joined by parent steps), containing exactly the strict
ancestors (transitive parent closure) of the start, without duplicates. -/
theorem ancestorsFuel_nil_spec (s : Store) (hWF : WF s) (hAc : Acyclic s) :
    ∀ (fuel : Nat) (cur : Id) (l : List Id),
      ancestorsFuel s fuel cur [] = some l →
      List.Chain (pstep s) cur l ∧
      (∀ a, a ∈ l ↔ Relation.TransGen (pstep s) cur a) ∧
      l.Nodup := by
  intro fuel
  induction fuel with
  | zero => intro cur l h; cases h
  | succ fuel ih =>
    intro cur l h
    cases hfind : s.find? cur with
    | none =>
      simp only [ancestorsFuel_succ, hfind] at h
      cases h
      refine ⟨List.Chain.nil, ?_, List.nodup_nil⟩
      intro a
      simp only [List.not_mem_nil, false_iff]
      intro htg
      rcases Relation.TransGen.head'_iff.mp htg with ⟨b, hstep, _⟩
      obtain ⟨it, hit, hid, _⟩ := hstep
      have := List.find?_eq_none.mp hfind it hit
      simp [hid] at this
    | some row =>
      cases hpar : row.parent_id with
      | none =>
        simp only [ancestorsFuel_succ, hfind, hpar] at h
        cases h
        refine ⟨List.Chain.nil, ?_, List.nodup_nil⟩
        intro a
        simp only [List.not_mem_nil, false_iff]
        intro htg
        rcases Relation.TransGen.head'_iff.mp htg with ⟨b, hstep, _⟩
        rcases find_of_pstep s hWF hstep with ⟨row', hfind', hpar'⟩
        rw [hfind] at hfind'
        cases hfind'
        rw [hpar] at hpar'
        cases hpar'
      | some pid =>
        simp only [ancestorsFuel_succ, hfind, hpar, List.nil_append] at h
        rw [ancestorsFuel_out_append] at h
        cases hm : ancestorsFuel s fuel pid [] with
        | none => rw [hm] at h; cases h
        | some m =>
          rw [hm] at h
          simp only [Option.map_some'] at h
          cases h
          have hstep : pstep s cur pid := pstep_of_find s hfind hpar
          obtain ⟨hchain, hmem, hnd⟩ := ih pid m hm
          have hstep_unique : ∀ b, pstep s cur b → b = pid := by
            intro b hb
            rcases find_of_pstep s hWF hb with ⟨row', hfind', hpar'⟩
            rw [hfind] at hfind'
            cases hfind'
            rw [hpar] at hpar'
            exact (Option.some.inj hpar').symm
          refine ⟨List.Chain.cons hstep hchain, ?_, ?_⟩
          · intro a
            constructor
            · intro ha
              rcases List.mem_cons.mp ha with rfl | ham
              · exact .single hstep
              · exact .head hstep ((hmem a).mp ham)
            · intro htg
              rcases Relation.TransGen.head'_iff.mp htg with ⟨b, hb, hrest⟩
              rw [hstep_unique b hb] at hrest
              rcases Relation.ReflTransGen.cases_head hrest with heq | ⟨c, hc, hcrest⟩
              · rw [← heq]
                exact List.mem_cons_self pid m
              · exact List.mem_cons_of_mem pid
                  ((hmem a).mpr (Relation.TransGen.head' hc hcrest))
          · rw [List.singleton_append, List.nodup_cons]
            refine ⟨?_, hnd⟩
            intro hpm
            exact hAc pid ((hmem pid).mp hpm)

/-- C4 counterexample: on the store whose single row `a` is its own parent
(reachable in the source by `move_item a (some a)`, which performs no cycle
check), the `ancestors` loop never reaches a break: no amount of fuel makes
it return, so termination over every stored item set is false. -/
theorem C4_ancestors_loops_on_cycle : ¬ ancestorsTerminates storeCyc "a" := by
  have hnone : ∀ (fuel : Nat) (out : List Id),
      ancestorsFuel storeCyc fuel "a" out = none := by
    intro fuel
    induction fuel with
    | zero => intro out; rfl
    | succ fuel ih => intro out; exact ih (out ++ ["a"])
  rintro ⟨fuel, hsome⟩
  rw [hnone fuel []] at hsome
  cases hsome

/-- C4 amended: on every well-formed acyclic store (the §3 data-model
invariants) and every item id, `ancestors` terminates — fuel one past the
row count reaches a break, also across dangling parent references, where
the partial chain accumulated so far is returned — and the returned list is
the parent chain from the nearest parent upward: consecutive entries are
parent steps, its members are exactly the strict ancestors of the start id,
and it contains no duplicate id. -/
theorem C4_ancestors_terminate (s : Store) (hWF : WF s) (hAc : Acyclic s) (item_id : Id) :
    ancestorsTerminates s item_id ∧
    ∃ l, ancestorsFuel s (s.items.length + 1) item_id [] = some l ∧
      List.Chain (pstep s) item_id l ∧
      (∀ a, a ∈ l ↔ Relation.TransGen (pstep s) item_id a) ∧
      l.Nodup := by
  have htotal := ancestorsFuel_total s hWF hAc item_id
  cases hl : ancestorsFuel s (s.items.length + 1) item_id [] with
  | none => rw [hl] at htotal; cases htotal
  | some l =>
    obtain ⟨hchain, hmem, hnd⟩ := ancestorsFuel_nil_spec s hWF hAc _ item_id l hl
    exact ⟨⟨s.items.length + 1, by rw [hl]; rfl⟩, l, rfl, hchain, hmem, hnd⟩

/-- A ranking argument for acyclicity: if every parent step strictly
decreases some measure, no id is its own strict ancestor. -/
theorem acyclic_of_rank (s : Store) (f : Id → Nat)
    (hf : ∀ x y, pstep s x y → f y < f x) : Acyclic s := by
  have ht : ∀ x y, Relation.TransGen (pstep s) x y → f y < f x := by
    intro x y h
    induction h with
    | single h1 => exact hf _ _ h1
    | tail _ hstep ih => exact lt_trans (hf _ _ hstep) ih
  intro x hx
  exact lt_irrefl _ (ht x x hx)

/-- The three-row store `p / c1, c2` satisfies the acyclicity invariant. -/
theorem storeP_acyclic : Acyclic storeP := by
  apply acyclic_of_rank storeP (fun x => if x = "p" then 0 else 1)
  rintro x y ⟨it, hit, rfl, hpar⟩
  simp only [storeP, sampleItem, List.mem_cons, List.not_mem_nil, or_false] at hit
  rcases hit with rfl | rfl | rfl
  · cases hpar
  · rw [Option.some.inj hpar.symm]
    simp
  · rw [Option.some.inj hpar.symm]
    simp

/-- Witness for C4 at a concrete input: on the well-formed acyclic store
`p / c1, c2`, `ancestors(c1)` terminates with the chain `[p]`. -/
theorem C4_ancestors_terminate_witness :
    ancestorsTerminates storeP "c1" ∧
    ∃ l, ancestorsFuel storeP (storeP.items.length + 1) "c1" [] = some l ∧
      List.Chain (pstep storeP) "c1" l ∧
      (∀ a, a ∈ l ↔ Relation.TransGen (pstep storeP) "c1" a) ∧
      l.Nodup :=
  C4_ancestors_terminate storeP (by decide) storeP_acyclic "c1"

/-! ### C9 — filter closure and hidden sections -/

theorem mem_foldl_append {β : Type _} (g : β → List Id) :
    ∀ (l : List β) (init : List Id) (x : Id),
      (x ∈ l.foldl (fun acc u => acc ++ g u) init) ↔ (x ∈ init ∨ ∃ u ∈ l, x ∈ g u) := by
  intro l
  induction l with
  | nil => simp
  | cons a t ih =>
    intro init x
    rw [List.foldl_cons, ih, List.mem_append]
    constructor
    · rintro ((hx | hx) | ⟨u, hu, hxu⟩)
      · exact .inl hx
      · exact .inr ⟨a, List.mem_cons_self a t, hx⟩
      · exact .inr ⟨u, List.mem_cons_of_mem a hu, hxu⟩
    · rintro (hx | ⟨u, hu, hxu⟩)
      · exact .inl (.inl hx)
      · rcases List.mem_cons.mp hu with rfl | hu
        · exact .inl (.inr hxu)
        · exact .inr ⟨u, hu, hxu⟩

/-- Membership in the filter closure: exactly the matching rows together
with the strict ancestors of each matching row. -/
theorem mem_visibleIds_iff (s : Store) (hWF : WF s) (hAc : Acyclic s)
    (pred : Item → Bool) (x : Id) :
    x ∈ visibleIds s pred ↔
      ((∃ it ∈ s.items, it.id = x ∧ pred it) ∨
       (∃ m ∈ s.items, pred m ∧ Relation.TransGen (pstep s) m.id x)) := by
  unfold visibleIds
  rw [mem_foldl_append]
  constructor
  · rintro (hx | ⟨tid, htid, hxa⟩)
    · rcases List.mem_map.mp hx with ⟨it, hfil, rfl⟩
      rcases List.mem_filter.mp hfil with ⟨hmem, hp⟩
      exact .inl ⟨it, hmem, rfl, hp⟩
    · rcases List.mem_map.mp htid with ⟨m, hfil, rfl⟩
      rcases List.mem_filter.mp hfil with ⟨hmem, hp⟩
      have htotal := ancestorsFuel_total s hWF hAc m.id
      cases hl : ancestorsFuel s (s.items.length + 1) m.id [] with
      | none => rw [hl] at htotal; cases htotal
      | some l =>
        rw [hl, Option.getD_some] at hxa
        have hspec := (ancestorsFuel_nil_spec s hWF hAc _ m.id l hl).2.1
        exact .inr ⟨m, hmem, hp, (hspec x).mp hxa⟩
  · rintro (⟨it, hmem, rfl, hp⟩ | ⟨m, hmem, hp, htg⟩)
    · exact .inl (List.mem_map_of_mem _ (List.mem_filter.mpr ⟨hmem, hp⟩))
    · right
      refine ⟨m.id, List.mem_map_of_mem _ (List.mem_filter.mpr ⟨hmem, hp⟩), ?_⟩
      have htotal := ancestorsFuel_total s hWF hAc m.id
      cases hl : ancestorsFuel s (s.items.length + 1) m.id [] with
      | none => rw [hl] at htotal; cases htotal
      | some l =>
        rw [Option.getD_some]
        exact ((ancestorsFuel_nil_spec s hWF hAc _ m.id l hl).2.1 x).mpr htg

/-- C9: on every well-formed acyclic store, the filter closure is exactly
the rows matching the predicate unioned with every ancestor of each match;
hence the full ancestor chain of every matching row is visible; and a
section that neither matches nor has a matching descendant is hidden by the
render gate: it is not in the visible set and the descendant search fails. -/
theorem C9_filter_closure (s : Store) (hWF : WF s) (hAc : Acyclic s) (pred : Item → Bool) :
    (∀ x, x ∈ visibleIds s pred ↔
      ((∃ it ∈ s.items, it.id = x ∧ pred it) ∨
       (∃ m ∈ s.items, pred m ∧ Relation.TransGen (pstep s) m.id x))) ∧
    (∀ m ∈ s.items, pred m → ∀ a, Relation.TransGen (pstep s) m.id a →
      a ∈ visibleIds s pred) ∧
    (∀ sec ∈ s.items, sec.type_ = "section" → pred sec = false →
      (∀ d ∈ s.items, Relation.TransGen (pstep s) d.id sec.id → pred d = false) →
      sec.id ∉ visibleIds s pred ∧ descendants_have_visible s pred sec.id = false) := by
  refine ⟨mem_visibleIds_iff s hWF hAc pred, ?_, ?_⟩
  · intro m hm hp a htg
    exact (mem_visibleIds_iff s hWF hAc pred a).mpr (.inr ⟨m, hm, hp, htg⟩)
  · intro sec hsec htype hpred hnodesc
    constructor
    · intro hv
      rcases (mem_visibleIds_iff s hWF hAc pred sec.id).mp hv with
        ⟨it, hit, hid, hp⟩ | ⟨m, hm, hp, htg⟩
      · rw [nodup_id_unique hWF hit hsec hid] at hp
        rw [hpred] at hp
        cases hp
      · rw [hnodesc m hm htg] at hp
        cases hp
    · unfold descendants_have_visible
      rw [List.any_eq_false]
      intro d hd
      rcases List.mem_filter.mp hd with ⟨hdc, hdne⟩
      have hdtg : Relation.TransGen (pstep s) d sec.id := by
        rcases (mem_cascadeIds_iff s sec.id d).mp hdc with rfl | htg
        · exact absurd rfl (bne_iff_ne.mp hdne)
        · exact htg
      rw [decide_eq_true_eq]
      intro hdv
      rcases (mem_visibleIds_iff s hWF hAc pred d).mp hdv with
        ⟨it, hit, hid, hp⟩ | ⟨m, hm, hp, htg⟩
      · rw [hnodesc it hit (hid ▸ hdtg)] at hp
        cases hp
      · rw [hnodesc m hm (htg.trans hdtg)] at hp
        cases hp

/-- Witness for C9 at a concrete input: with the critical-priority filter on
the all-medium store `p / c1, c2`, the section `p` neither matches nor has a
matching descendant, so it is hidden. -/
theorem C9_filter_closure_witness :
    "p" ∉ visibleIds storeP (fun it => it.priority == "critical") ∧
    descendants_have_visible storeP (fun it => it.priority == "critical") "p" = false := by
  have h := (C9_filter_closure storeP (by decide) storeP_acyclic
      (fun it => it.priority == "critical")).2.2
      (sampleItem "p" none "section" 0) (by simp [storeP]) rfl (by decide)
      (by
        intro d hd _
        simp only [storeP, sampleItem, List.mem_cons, List.not_mem_nil, or_false] at hd
        rcases hd with rfl | rfl | rfl <;> rfl)
  exact h

/-! ### C2 — `reorder` and `build_index` -/

/-- First position of an id in a list, if present. -/
def posOf : List Id → Id → Option Nat
  | [], _ => none
  | a :: t, x => if x = a then some 0 else (posOf t x).map (· + 1)

theorem posOf_eq_none {l : List Id} {x : Id} : posOf l x = none ↔ x ∉ l := by
  induction l with
  | nil => simp [posOf]
  | cons a t ih =>
    by_cases h : x = a
    · simp [posOf, h]
    · simp [posOf, h, ih]

theorem posOf_spec : ∀ (l : List Id) (x : Id) (i : Nat), posOf l x = some i →
    ∃ h : i < l.length, l[i] = x := by
  intro l
  induction l with
  | nil => intro x i h; cases h
  | cons a t ih =>
    intro x i h
    by_cases hx : x = a
    · rw [posOf, if_pos hx] at h
      cases h
      exact ⟨by simp, hx.symm⟩
    · rw [posOf, if_neg hx] at h
      cases hp : posOf t x with
      | none => rw [hp] at h; cases h
      | some j =>
        rw [hp] at h
        simp only [Option.map_some'] at h
        cases h
        obtain ⟨hj, hget⟩ := ih x j hp
        exact ⟨by simpa using Nat.succ_lt_succ hj, by simpa using hget⟩

theorem posOf_get : ∀ (l : List Id), l.Nodup → ∀ (i : Nat) (h : i < l.length),
    posOf l (l[i]) = some i := by
  intro l
  induction l with
  | nil => intro _ i h; cases h
  | cons a t ih =>
    intro hnd i h
    cases i with
    | zero => simp [posOf]
    | succ j =>
      have hj : j < t.length := by simpa using h
      have hmem : t[j] ∈ t := List.getElem_mem hj
      have hget : (a :: t)[j + 1] = t[j] := by simp
      have hne : (a :: t)[j + 1] ≠ a := by
        rw [hget]
        intro heq
        exact (List.nodup_cons.mp hnd).1 (heq ▸ hmem)
      rw [posOf, if_neg hne, hget, ih (List.nodup_cons.mp hnd).2 j hj]
      rfl

/-- Two permuted lists that are both strictly increasing in the same key are
equal. -/
theorem perm_pairwise_lt_eq {β : Type _} (f : β → Nat) :
    ∀ (l₁ l₂ : List β), l₁.Perm l₂ → l₁.Pairwise (fun a b => f a < f b) →
      l₂.Pairwise (fun a b => f a < f b) → l₁ = l₂ := by
  intro l₁
  induction l₁ with
  | nil =>
    intro l₂ hp _ _
    exact hp.nil_eq
  | cons a t ih =>
    intro l₂ hp h1 h2
    cases l₂ with
    | nil => exact absurd hp.symm (by simp)
    | cons b u =>
      have hab : a = b := by
        by_contra hne
        have hamem : a ∈ b :: u := hp.mem_iff.mp (List.mem_cons_self a t)
        have hbmem : b ∈ a :: t := hp.mem_iff.mpr (List.mem_cons_self b u)
        rcases List.mem_cons.mp hamem with h | hau
        · exact hne h
        rcases List.mem_cons.mp hbmem with h | hbt
        · exact hne h.symm
        have h1' := (List.pairwise_cons.mp h1).1 b hbt
        have h2' := (List.pairwise_cons.mp h2).1 a hau
        omega
      subst hab
      rw [ih u hp.cons_inv (List.pairwise_cons.mp h1).2 (List.pairwise_cons.mp h2).2]

/-- The sequence of single-row UPDATEs of `update_children_sort`, indexed
from `n`, rewrites each listed row's `sort_order` to its list position and
leaves every other row alone. -/
theorem reorder_fold_eq (t : Nat) :
    ∀ (ordered : List Id) (n : Nat) (s : Store), ordered.Nodup →
      (List.enumFrom n ordered).foldl (fun st q =>
        { st with items := st.items.map (fun it =>
            if it.id = q.2 then { it with sort_order := (q.1 : Int), updated_at := t }
            else it) }) s
      = { s with items := s.items.map (fun it =>
          match posOf ordered it.id with
          | some i => { it with sort_order := ((n + i : Nat) : Int), updated_at := t }
          | none => it) } := by
  intro ordered
  induction ordered with
  | nil =>
    intro n s _
    show s = _
    have : s.items.map (fun it =>
        match posOf [] it.id with
        | some i => { it with sort_order := ((n + i : Nat) : Int), updated_at := t }
        | none => it) = s.items := by
      apply List.map_congr_left ?_ |>.trans (List.map_id s.items)
      intro it _
      rfl
    rw [this]
  | cons a rest ih =>
    intro n s hnd
    rw [show List.enumFrom n (a :: rest) = (n, a) :: List.enumFrom (n + 1) rest from rfl,
      List.foldl_cons, ih (n + 1) _ (List.nodup_cons.mp hnd).2]
    have hanotin : a ∉ rest := (List.nodup_cons.mp hnd).1
    congr 1
    rw [List.map_map]
    apply List.map_congr_left
    intro it _
    by_cases hc : it.id = a
    · simp only [Function.comp_apply, if_pos hc]
      rw [show ({ it with sort_order := ((n : Nat) : Int), updated_at := t } : Item).id
          = it.id from rfl]
      rw [show posOf rest it.id = none from by rw [hc]; exact posOf_eq_none.mpr hanotin]
      rw [show posOf (a :: rest) it.id = some 0 from by rw [posOf, if_pos hc]]
      simp
    · simp only [Function.comp_apply, if_neg hc]
      have hpos : posOf (a :: rest) it.id = (posOf rest it.id).map (· + 1) := by
        rw [posOf, if_neg hc]
      cases hp : posOf rest it.id with
      | none =>
        rw [show posOf (a :: rest) it.id = none from by rw [hpos, hp]; rfl]
      | some i =>
        rw [show posOf (a :: rest) it.id = some (i + 1) from by rw [hpos, hp]; rfl]
        show ({ it with sort_order := ((n + 1 + i : Nat) : Int), updated_at := t } : Item) = _
        have harith : n + 1 + i = n + (i + 1) := by omega
        rw [harith]

/-- The per-row effect of a whole `update_children_sort(parent, ordered)`
call: a listed row's `sort_order` becomes its list position, an unlisted row
is untouched. -/
def reorderFun (ordered : List Id) (t : Nat) : Item → Item := fun it =>
  match posOf ordered it.id with
  | some i => { it with sort_order := (i : Int), updated_at := t }
  | none => it

/-- `update_children_sort` succeeds unconditionally and rewrites exactly the
listed rows: each row whose id occurs in `ordered_ids` gets `sort_order :=`
its position, every other row is untouched. -/
theorem reorder_items_eq (s : Store) (pid : Option Id) (ordered : List Id) (t : Nat)
    (hnd : ordered.Nodup) :
    update_children_sort s pid ordered t =
      .ok { s with items := s.items.map (reorderFun ordered t) } := by
  unfold update_children_sort reorderFun
  rw [show ordered.enum = List.enumFrom 0 ordered from rfl, reorder_fold_eq t ordered 0 s hnd]
  congr 1
  congr 1
  apply List.map_congr_left
  intro it _
  cases hp : posOf ordered it.id with
  | none => rfl
  | some i =>
    show ({ it with sort_order := ((0 + i : Nat) : Int), updated_at := t } : Item) = _
    rw [Nat.zero_add]

theorem reorderFun_id (ordered : List Id) (t : Nat) (it : Item) :
    (reorderFun ordered t it).id = it.id := by
  unfold reorderFun
  cases posOf ordered it.id <;> rfl

theorem reorderFun_parent (ordered : List Id) (t : Nat) (it : Item) :
    (reorderFun ordered t it).parent_id = it.parent_id := by
  unfold reorderFun
  cases posOf ordered it.id <;> rfl

/-- The two-child store after a `reorder` call that omits child `c2`. -/
def storePBad : Store :=
  okD (update_children_sort storeP (some "p") ["c1"] 9) storeP

/-- C2 counterexample: the claim says a `reorder` whose id set is not
exactly the current children fails with ValidationError and leaves storage
unchanged.  The code validates nothing: on the store `p / c1, c2`, reordering
with `[c1]` (omitting `c2`) returns success and rewrites `c1.sort_order`
from 5 to 0 — no error, storage changed. -/
theorem C2_reorder_accepts_bad_set :
    update_children_sort storeP (some "p") ["c1"] 9 = .ok storePBad ∧
    storePBad ≠ storeP := by
  decide

/-- C2 amended: `update_children_sort` performs no validation and always
succeeds; when `ordered_ids` is a permutation of the current children of
`parent_id` (on a well-formed store), it rewrites their `sort_order` to
0..n-1 in the given sequence, and a subsequent `build_index` yields the
children in exactly that order. -/
theorem C2_reorder_permutation (s : Store) (pid : Option Id) (ordered : List Id) (t : Nat)
    (hWF : WF s) (hnd : ordered.Nodup)
    (hset : ∀ x, x ∈ ordered ↔
      x ∈ (s.items.filter (fun it => it.parent_id == pid)).map (·.id)) :
    update_children_sort s pid ordered t
      = .ok { s with items := s.items.map (reorderFun ordered t) } ∧
    (∀ it' ∈ s.items.map (reorderFun ordered t), ∀ i,
      posOf ordered it'.id = some i → it'.sort_order = (i : Int)) ∧
    build_index { s with items := s.items.map (reorderFun ordered t) } pid = ordered := by
  refine ⟨reorder_items_eq s pid ordered t hnd, ?_, ?_⟩
  · intro it' hit' i hposi
    rcases List.mem_map.mp hit' with ⟨src, hsrc, rfl⟩
    rw [reorderFun_id] at hposi
    show (reorderFun ordered t src).sort_order = (i : Int)
    unfold reorderFun
    rw [hposi]
  · show ((List.insertionSort leKey (s.items.map (reorderFun ordered t))).filter
        (fun it => it.parent_id == pid)).map (·.id) = ordered
    have hgroup : (s.items.map (reorderFun ordered t)).filter (fun it => it.parent_id == pid)
        = (s.items.filter (fun it => it.parent_id == pid)).map (reorderFun ordered t) := by
      rw [List.filter_map]
      congr 1
      apply List.filter_congr
      intro it _
      rw [Function.comp_apply, reorderFun_parent]
    have hsub : ((s.items.filter (fun it => it.parent_id == pid)).map (·.id)).Sublist
        (s.items.map (·.id)) := (List.filter_sublist s.items).map _
    have hchild_nd : ((s.items.filter (fun it => it.parent_id == pid)).map (·.id)).Nodup :=
      List.Nodup.sublist hsub hWF
    have hperm_child : ordered.Perm
        ((s.items.filter (fun it => it.parent_id == pid)).map (·.id)) :=
      (List.subperm_of_subset hnd (fun x hx => (hset x).mp hx)).antisymm
        (List.subperm_of_subset hchild_nd (fun x hx => (hset x).mpr hx))
    have hFperm : ((List.insertionSort leKey (s.items.map (reorderFun ordered t))).filter
          (fun it => it.parent_id == pid)).Perm
        ((s.items.filter (fun it => it.parent_id == pid)).map (reorderFun ordered t)) := by
      have hp := List.Perm.filter (fun it => it.parent_id == pid)
        (List.perm_insertionSort leKey (s.items.map (reorderFun ordered t)))
      rw [hgroup] at hp
      exact hp
    have hFpair : ((List.insertionSort leKey (s.items.map (reorderFun ordered t))).filter
        (fun it => it.parent_id == pid)).Pairwise leKey :=
      List.Pairwise.sublist (List.filter_sublist _)
        (List.sorted_insertionSort leKey (s.items.map (reorderFun ordered t)))
    have hFids_perm : (((List.insertionSort leKey (s.items.map (reorderFun ordered t))).filter
          (fun it => it.parent_id == pid)).map (·.id)).Perm ordered := by
      have h1 : ((s.items.filter (fun it => it.parent_id == pid)).map
            (reorderFun ordered t)).map (·.id)
          = (s.items.filter (fun it => it.parent_id == pid)).map (·.id) := by
        rw [List.map_map]
        apply List.map_congr_left
        intro it _
        exact reorderFun_id ordered t it
      have h2 := hFperm.map (·.id)
      rw [h1] at h2
      exact h2.trans hperm_child.symm
    have hFsort : ∀ it ∈ (List.insertionSort leKey (s.items.map (reorderFun ordered t))).filter
          (fun it => it.parent_id == pid),
        ∃ i, posOf ordered it.id = some i ∧ it.sort_order = (i : Int) := by
      intro it hit
      have hmem := hFperm.mem_iff.mp hit
      rcases List.mem_map.mp hmem with ⟨src, hsrc, rfl⟩
      have hin : src.id ∈ ordered := (hset src.id).mpr (List.mem_map_of_mem _ hsrc)
      cases hp : posOf ordered src.id with
      | none => exact absurd hin (posOf_eq_none.mp hp)
      | some i =>
        refine ⟨i, ?_, ?_⟩
        · rw [reorderFun_id]
          exact hp
        · show (reorderFun ordered t src).sort_order = (i : Int)
          unfold reorderFun
          rw [hp]
    have hFne : ((List.insertionSort leKey (s.items.map (reorderFun ordered t))).filter
        (fun it => it.parent_id == pid)).Pairwise (fun a b => a.id ≠ b.id) :=
      List.pairwise_map.mp (hFids_perm.symm.nodup hnd)
    have hFidx : ((List.insertionSort leKey (s.items.map (reorderFun ordered t))).filter
        (fun it => it.parent_id == pid)).Pairwise
        (fun a b => (posOf ordered a.id).getD 0 < (posOf ordered b.id).getD 0) := by
      apply List.Pairwise.imp_of_mem ?_ (hFpair.and hFne)
      intro a b ha hb hab
      obtain ⟨hk, hne⟩ := hab
      obtain ⟨i, hpi, hsi⟩ := hFsort a ha
      obtain ⟨j, hpj, hsj⟩ := hFsort b hb
      rw [hpi, hpj, Option.getD_some, Option.getD_some]
      unfold leKey at hk
      rcases hk with hlt | ⟨heq, _⟩
      · rw [hsi, hsj] at hlt
        exact_mod_cast hlt
      · rw [hsi, hsj] at heq
        have hij : i = j := by exact_mod_cast heq
        subst hij
        obtain ⟨hi, hgi⟩ := posOf_spec ordered a.id i hpi
        obtain ⟨hj', hgj⟩ := posOf_spec ordered b.id i hpj
        exact absurd (hgi.symm.trans hgj) hne
    have hOrd : ordered.Pairwise
        (fun x y => (posOf ordered x).getD 0 < (posOf ordered y).getD 0) := by
      rw [List.pairwise_iff_getElem]
      intro i j hi hj hij
      rw [posOf_get ordered hnd i hi, posOf_get ordered hnd j hj,
        Option.getD_some, Option.getD_some]
      exact hij
    exact perm_pairwise_lt_eq (fun x => (posOf ordered x).getD 0) _ ordered
      hFids_perm (List.pairwise_map.mpr hFidx) hOrd

/-- Witness for C2 at a concrete input: reordering the children of `p` to
`[c2, c1]` succeeds, writes sort positions 0 and 1, and `build_index` then
lists them as `[c2, c1]`. -/
theorem C2_reorder_permutation_witness :
    update_children_sort storeP (some "p") ["c2", "c1"] 9
      = .ok { storeP with items := storeP.items.map (reorderFun ["c2", "c1"] 9) } ∧
    (∀ it' ∈ storeP.items.map (reorderFun ["c2", "c1"] 9), ∀ i,
      posOf ["c2", "c1"] it'.id = some i → it'.sort_order = (i : Int)) ∧
    build_index { storeP with items := storeP.items.map (reorderFun ["c2", "c1"] 9) }
      (some "p") = ["c2", "c1"] :=
  C2_reorder_permutation storeP (some "p") ["c2", "c1"] 9 (by decide) (by decide)
    (by
      intro x
      rw [show (storeP.items.filter (fun it => it.parent_id == some "p")).map (·.id)
          = ["c1", "c2"] from rfl]
      constructor
      · intro hx
        rcases List.mem_cons.mp hx with rfl | hx
        · exact List.mem_cons_of_mem _ (List.mem_singleton_self _)
        · rcases List.mem_cons.mp hx with rfl | hx
          · exact List.mem_cons_self _ _
          · cases hx
      · intro hx
        rcases List.mem_cons.mp hx with rfl | hx
        · exact List.mem_cons_of_mem _ (List.mem_singleton_self _)
        · rcases List.mem_cons.mp hx with rfl | hx
          · exact List.mem_cons_self _ _
          · cases hx)

end Notetaker
